import Mathlib

/-!
Verification of the table-reconciliation core of `vrename.py`.

The program correlates an "old" (left) tag→path table with a user-edited
"new" (right) tag→path table.  The reconciler is a pure function of the two
tables, so we embed it directly:

* `buildLeftTable` models the first loop of `_confront_two_tables`
  (building the `OrderedDict`, detecting duplicate left tags),
* `appendRight` / `fillRights` model the second loop (appending each right
  value to its tag's list, detecting orphan right tags),
* `confrontTwoTablesImpl` models `_confront_two_tables`,
* `confront_two_tables` and `pairwise_two_tables` model the two public
  entry points, and `pairwiseClassify` models the classification loop of
  `pairwise_two_tables`,
* `VError` models the four exception classes as a sum type; raising maps to
  `Except.error`.

The `OrderedDict` is modelled as an insertion-ordered association list
`Dict`.  `buildLeftTable` never produces two entries with the same tag
(it raises on a duplicate), so updating every entry whose tag matches, as
`appendRight` does, coincides with Python's update of the unique key.

Python's parser `parse_old_new_file` (`line.strip().split(None, 1)`) is
modelled over `List Char` by `stripChars`, `splitNone1`, `parseLine` and
`parseTable`; a line whose stripped form does not split into exactly two
fields raises `ValueError`, modelled by `Except.error` carrying the line.
-/

set_option autoImplicit false
set_option linter.unusedSectionVars false

namespace Vrename

variable {τ : Type} {α : Type} [DecidableEq τ]

/-- The four reconciliation exception classes of `vrename.py`, as a sum type:
`DuplicateTagError`, `NoLeftValueError`, `MultipleRightValueError`,
`NoRightValueError`, each carrying the same fields as the Python class. -/
inductive VError (τ : Type) (α : Type) where
  | duplicateTag (tag : τ) (left_values : List α)
  | noLeftValue (tag : τ) (right_value : α)
  | multipleRightValue (tag : τ) (left_value : α) (right_values : List α)
  | noRightValue (tag : τ) (left_value : α)
  deriving DecidableEq

/-- The `OrderedDict` of `_confront_two_tables`, as an insertion-ordered
association list from tag to `(left_value, right_values)`. -/
abbrev Dict (τ : Type) (α : Type) := List (τ × α × List α)

/-- Lookup modelling `tag in d` / `d[tag]` on the ordered dictionary. -/
def lookupTag (d : Dict τ α) (t : τ) : Option (α × List α) :=
  (d.find? (fun e => decide (e.1 = t))).map (fun e => e.2)

/-- First loop of `_confront_two_tables`: insert left entries in order;
a tag already present raises `DuplicateTagError(tag, [d[tag][0], left_value])`. -/
def buildLeftTable : List (τ × α) → Dict τ α → Except (VError τ α) (Dict τ α)
  | [], d => .ok d
  | (tag, lv) :: rest, d =>
    match lookupTag d tag with
    | some (lv0, _) => .error (.duplicateTag tag [lv0, lv])
    | none => buildLeftTable rest (d ++ [(tag, lv, [])])

/-- Update modelling `d[tag][1].append(right_value)`: `none` when the tag is absent (Python's
`KeyError`).  The dictionaries produced by `buildLeftTable` have pairwise
distinct tags, so updating every matching entry updates exactly the one
entry Python updates. -/
def appendRight (d : Dict τ α) (tag : τ) (rv : α) : Option (Dict τ α) :=
  if d.any (fun e => decide (e.1 = tag)) then
    some (d.map (fun e => if e.1 = tag then (e.1, e.2.1, e.2.2 ++ [rv]) else e))
  else none

/-- Second loop of `_confront_two_tables`: scan the right table in order,
appending each value to its tag's list; an absent tag raises
`NoLeftValueError(tag, right_value)`. -/
def fillRights : Dict τ α → List (τ × α) → Except (VError τ α) (Dict τ α)
  | d, [] => .ok d
  | d, (tag, rv) :: rest =>
    match appendRight d tag rv with
    | none => .error (.noLeftValue tag rv)
    | some d2 => fillRights d2 rest

/-- Model of `_confront_two_tables(left_table, right_table)`: build the ordered
dictionary from the left table, then fill in the right values. -/
def confrontTwoTablesImpl (left right : List (τ × α)) :
    Except (VError τ α) (Dict τ α) :=
  match buildLeftTable left [] with
  | .error e => .error e
  | .ok d => fillRights d right

/-- Model of `confront_two_tables(left_table, right_table)`: the dictionary's entries
as `(left_value, right_values)` pairs, in left-table insertion order. -/
def confront_two_tables (left right : List (τ × α)) :
    Except (VError τ α) (List (α × List α)) :=
  match confrontTwoTablesImpl left right with
  | .error e => .error e
  | .ok d => .ok (d.map (fun e => (e.2.1, e.2.2)))

/-- The classification loop of `pairwise_two_tables` over the dictionary's
entries, in order: more than one right value raises
`MultipleRightValueError`; zero right values pair with `none` when
`allow_no_right` and raise `NoRightValueError` otherwise; exactly one right
value pairs with it. -/
def pairwiseClassify (allow : Bool) :
    Dict τ α → Except (VError τ α) (List (α × Option α))
  | [] => .ok []
  | (tag, lv, rvs) :: rest =>
    if rvs.length > 1 then .error (.multipleRightValue tag lv rvs)
    else
      match rvs with
      | [] =>
        if allow then
          (pairwiseClassify allow rest).map (fun ps => (lv, none) :: ps)
        else .error (.noRightValue tag lv)
      | rv :: _ =>
        (pairwiseClassify allow rest).map (fun ps => (lv, some rv) :: ps)

/-- Model of `pairwise_two_tables(left_table, right_table, allow_no_right)`; the
Python default for `allow_no_right` is `true`. -/
def pairwise_two_tables (left right : List (τ × α)) (allow_no_right : Bool) :
    Except (VError τ α) (List (α × Option α)) :=
  match confrontTwoTablesImpl left right with
  | .error e => .error e
  | .ok d => pairwiseClassify allow_no_right d

/-- Spec-side description of a tag's right values: the value of every right
entry bearing the tag, in right-table order.  Used to compare the code's
results against the specification. -/
def rightValues (right : List (τ × α)) (t : τ) : List α :=
  (right.filter (fun q => decide (q.1 = t))).map Prod.snd

/-! ### Parser (`parse_old_new_file`) -/

/-- The characters Python 3's `str.strip()` / `str.split(None, ...)` treat
as whitespace (CPython's `Py_UNICODE_ISSPACE`): U+0009–U+000D, U+001C–U+001F,
space, U+0085, U+00A0, U+1680, U+2000–U+200A, U+2028, U+2029, U+202F,
U+205F and U+3000. -/
def isPySpace (c : Char) : Bool :=
  (0x09 ≤ c.val && c.val ≤ 0x0D) || (0x1C ≤ c.val && c.val ≤ 0x1F) ||
    c.val = 0x20 || c.val = 0x85 || c.val = 0xA0 || c.val = 0x1680 ||
    (0x2000 ≤ c.val && c.val ≤ 0x200A) ||
    c.val = 0x2028 || c.val = 0x2029 || c.val = 0x202F || c.val = 0x205F ||
    c.val = 0x3000

/-- Model of `line.strip()`: remove leading and trailing Python whitespace. -/
def stripChars (l : List Char) : List Char :=
  ((l.dropWhile isPySpace).reverse.dropWhile isPySpace).reverse

/-- Model of `s.split(None, 1)`: skip leading whitespace; the first field is the run
of non-whitespace; the separator run is consumed; the remainder, if
non-empty, is the second element. -/
def splitNone1 (l : List Char) : List (List Char) :=
  let l1 := l.dropWhile isPySpace
  if l1.isEmpty then []
  else
    let t := l1.takeWhile (fun c => !isPySpace c)
    let rest := (l1.dropWhile (fun c => !isPySpace c)).dropWhile isPySpace
    if rest.isEmpty then [t] else [t, rest]

/-- Model of `tag, path = line.strip().split(None, 1)`: succeeds exactly when the
split yields two fields; otherwise Python raises `ValueError`, modelled by
an error carrying the offending line. -/
def parseLine (l : List Char) : Except (List Char) (List Char × List Char) :=
  match splitNone1 (stripChars l) with
  | [t, v] => .ok (t, v)
  | _ => .error l

/-- Model of `list(_parse_old_new_file(path))`: parse the lines in file order,
aborting at the first malformed line with its `ValueError`; no partial
list is ever produced. -/
def parseTable : List (List Char) → Except (List Char) (List (List Char × List Char))
  | [] => .ok []
  | l :: rest =>
    match parseLine l with
    | .error err => .error err
    | .ok e =>
      match parseTable rest with
      | .error err => .error err
      | .ok es => .ok (e :: es)

/-! ### Exit behaviour of the `move` command -/

def EXIT_SUCCESS : Nat := 0

def EXIT_FAIL : Nat := 1

def EXIT_UNEXPECTED_FAIL : Nat := 2

/-- Exit code of `main_move` as a function of the two session files' lines,
with the filesystem operations assumed to succeed (e.g. dry-run).  A
malformed line raises `ValueError`, which `capture_os_error` does not catch
(it catches only `EnvironmentError`), so it propagates to `main`'s
`except Exception` handler: traceback and `EXIT_UNEXPECTED_FAIL`.  The four
reconciliation errors are caught in `main_move` and routed through
`print_error_and_exit`, i.e. `EXIT_FAIL`. -/
def main_move_exit (oldLines newLines : List (List Char)) : Nat :=
  match parseTable oldLines with
  | .error _ => EXIT_UNEXPECTED_FAIL
  | .ok old =>
    match parseTable newLines with
    | .error _ => EXIT_UNEXPECTED_FAIL
    | .ok new =>
      match pairwise_two_tables old new true with
      | .error _ => EXIT_FAIL
      | .ok _ => EXIT_SUCCESS

/-! ### Sanity checks against the doctests of `vrename.py` -/

example : confront_two_tables
    [("tag1", "L1"), ("tag2", "L2"), ("tag3", "L3")]
    [("tag1", "R1"), ("tag1", "R1-B"), ("tag3", "R3")] =
    .ok [("L1", ["R1", "R1-B"]), ("L2", []), ("L3", ["R3"])] := rfl

example : confront_two_tables
    [("tag1", "L1"), ("tag1", "L1-B")] ([] : List (String × String)) =
    .error (.duplicateTag "tag1" ["L1", "L1-B"]) := rfl

example : confront_two_tables
    [("tag1", "v"), ("tag2", "v")] [("tag3", "missing-left")] =
    .error (.noLeftValue "tag3" "missing-left") := rfl

example : pairwise_two_tables
    [("tag1", "L1"), ("tag2", "L2"), ("tag3", "L3")]
    [("tag1", "R1"), ("tag3", "R3"), ("tag2", "R2")] true =
    .ok [("L1", some "R1"), ("L2", some "R2"), ("L3", some "R3")] := rfl

example : pairwise_two_tables
    [("tag1", "L1"), ("tag2", "L2")]
    [("tag1", "R1"), ("tag3", "R3"), ("tag2", "R2")] true =
    .error (.noLeftValue "tag3" "R3") := rfl

example : pairwise_two_tables
    [("tag1", "L1"), ("tag2", "L2"), ("tag3", "L3")]
    [("tag1", "R1"), ("tag3", "R3")] false =
    .error (.noRightValue "tag2" "L2") := rfl

example : pairwise_two_tables
    [("tag1", "L1"), ("tag2", "L2"), ("tag3", "L3")]
    [("tag1", "R1"), ("tag3", "R3")] true =
    .ok [("L1", some "R1"), ("L2", none), ("L3", some "R3")] := rfl

example : pairwise_two_tables
    [("tag1", "L1"), ("tag2", "L2"), ("tag3", "L3")]
    [("tag1", "R1"), ("tag3", "R3"), ("tag2", "R2"), ("tag1", "R1-B")] true =
    .error (.multipleRightValue "tag1" "L1" ["R1", "R1-B"]) := rfl

example : parseLine "ab3 /tmp/a b.txt\n".data = .ok ("ab3".data, "/tmp/a b.txt".data) := rfl

example : parseLine "orphan\n".data = .error "orphan\n".data := rfl

example : parseLine "t1 v\xa0".data = .ok ("t1".data, "v".data) := rfl

example : parseLine "a\xa0b c".data = .ok ("a".data, "b c".data) := rfl

/-! ### Structural lemmas about the reconciler -/

theorem lookupTag_eq_none {d : Dict τ α} {t : τ}
    (h : t ∉ d.map (fun e => e.1)) : lookupTag d t = none := by
  have hf : d.find? (fun e => decide (e.1 = t)) = none := by
    rw [List.find?_eq_none]
    intro e he
    simp only [decide_eq_true_eq]
    intro het
    exact h (List.mem_map.mpr ⟨e, he, het⟩)
  simp [lookupTag, hf]

theorem buildLeftTable_ok (left : List (τ × α)) : ∀ d : Dict τ α,
    ((d.map (fun e => e.1)) ++ left.map Prod.fst).Nodup →
    buildLeftTable left d =
      .ok (d ++ left.map (fun e => (e.1, e.2, ([] : List α)))) := by
  induction left with
  | nil => intro d _; simp [buildLeftTable]
  | cons a rest ih =>
    intro d h
    obtain ⟨t, v⟩ := a
    have hdisj : (d.map (fun e => e.1)).Disjoint (((t, v) :: rest).map Prod.fst) :=
      (List.nodup_append.mp h).2.2
    have ht : t ∉ d.map (fun e => e.1) := by
      intro hmem
      exact hdisj hmem (by simp)
    have hlk : lookupTag d t = none := lookupTag_eq_none ht
    have harr : ((d ++ [(t, v, ([] : List α))]).map (fun e => e.1))
        ++ rest.map Prod.fst = (d.map (fun e => e.1)) ++ ((t, v) :: rest).map Prod.fst := by
      simp [List.append_assoc]
    have h2 : (((d ++ [(t, v, ([] : List α))]).map (fun e => e.1))
        ++ rest.map Prod.fst).Nodup := by
      rw [harr]; exact h
    have := ih (d ++ [(t, v, [])]) h2
    simp only [buildLeftTable, hlk] at *
    rw [this]
    simp [List.append_assoc]

theorem appendRight_of_mem {d : Dict τ α} {t : τ} (rv : α)
    (h : t ∈ d.map (fun e => e.1)) :
    appendRight d t rv =
      some (d.map (fun e => if e.1 = t then (e.1, e.2.1, e.2.2 ++ [rv]) else e)) := by
  have hany : d.any (fun e => decide (e.1 = t)) = true := by
    rw [List.any_eq_true]
    obtain ⟨e, he, het⟩ := List.mem_map.mp h
    exact ⟨e, he, by simp [het]⟩
  simp [appendRight, hany]

theorem appendRight_of_not_mem {d : Dict τ α} {t : τ} (rv : α)
    (h : t ∉ d.map (fun e => e.1)) : appendRight d t rv = none := by
  have hany : d.any (fun e => decide (e.1 = t)) = false := by
    rw [Bool.eq_false_iff]
    intro hc
    obtain ⟨e, he, het⟩ := List.any_eq_true.mp hc
    exact h (List.mem_map.mpr ⟨e, he, by simpa using het⟩)
  simp [appendRight, hany]

theorem map_fst_update (d : Dict τ α) (t : τ) (rv : α) :
    (d.map (fun e => if e.1 = t then (e.1, e.2.1, e.2.2 ++ [rv]) else e)).map
        (fun e => e.1) = d.map (fun e => e.1) := by
  rw [List.map_map]
  apply List.map_congr_left
  intro e _
  by_cases he : e.1 = t <;> simp [he]

theorem fillRights_ok (right : List (τ × α)) : ∀ d : Dict τ α,
    (∀ q ∈ right, q.1 ∈ d.map (fun e => e.1)) →
    fillRights d right =
      .ok (d.map (fun e => (e.1, e.2.1, e.2.2 ++ rightValues right e.1))) := by
  induction right with
  | nil =>
    intro d _
    simp [fillRights, rightValues]
  | cons q rest ih =>
    intro d h
    obtain ⟨t, rv⟩ := q
    have hmem : t ∈ d.map (fun e => e.1) := h (t, rv) (by simp)
    have happ := @appendRight_of_mem _ _ _ d t rv hmem
    have hsub : ∀ q' ∈ rest,
        q'.1 ∈ (d.map (fun e => if e.1 = t then (e.1, e.2.1, e.2.2 ++ [rv]) else e)).map
          (fun e => e.1) := by
      intro q' hq'
      rw [map_fst_update]
      exact h q' (by simp [hq'])
    have := ih _ hsub
    simp only [fillRights, happ]
    rw [this, List.map_map]
    congr 1
    apply List.map_congr_left
    intro e _
    by_cases he : e.1 = t
    · simp [Function.comp, he, rightValues, List.filter_cons, List.append_assoc]
    · have : ¬ (t = e.1) := fun hc => he hc.symm
      simp [Function.comp, he, rightValues, List.filter_cons, this]

/-- Master characterisation: with pairwise-distinct left tags and right tags
drawn from the left tags, `_confront_two_tables` succeeds and each left
entry carries exactly its right values in right-table order. -/
theorem confrontTwoTablesImpl_ok {left right : List (τ × α)}
    (hL : (left.map Prod.fst).Nodup)
    (hR : ∀ q ∈ right, q.1 ∈ left.map Prod.fst) :
    confrontTwoTablesImpl left right =
      .ok (left.map (fun e => (e.1, e.2, rightValues right e.1))) := by
  have hb := buildLeftTable_ok left [] (by simpa using hL)
  have htags : (left.map (fun e => (e.1, e.2, ([] : List α)))).map (fun e => e.1)
      = left.map Prod.fst := by
    rw [List.map_map]; rfl
  have hf := fillRights_ok right (left.map (fun e => (e.1, e.2, ([] : List α))))
    (by intro q hq; rw [htags]; exact hR q hq)
  simp only [confrontTwoTablesImpl, hb, List.nil_append]
  rw [hf, List.map_map]
  rfl

theorem pairwiseClassify_all_single {allow : Bool} : ∀ d : Dict τ α,
    (∀ e ∈ d, e.2.2.length = 1) →
    pairwiseClassify allow d = .ok (d.map (fun e => (e.2.1, e.2.2.head?))) := by
  intro d
  induction d with
  | nil => intro _; simp [pairwiseClassify]
  | cons e rest ih =>
    intro h
    obtain ⟨t, lv, rvs⟩ := e
    have h1 : rvs.length = 1 := h (t, lv, rvs) (by simp)
    rw [List.length_eq_one] at h1
    obtain ⟨rv, rfl⟩ := h1
    have := ih (fun e' he' => h e' (by simp [he']))
    simp [pairwiseClassify, this, Except.map]

theorem pairwiseClassify_true_le_one : ∀ d : Dict τ α,
    (∀ e ∈ d, e.2.2.length ≤ 1) →
    pairwiseClassify true d = .ok (d.map (fun e => (e.2.1, e.2.2.head?))) := by
  intro d
  induction d with
  | nil => intro _; simp [pairwiseClassify]
  | cons e rest ih =>
    intro h
    obtain ⟨t, lv, rvs⟩ := e
    have h1 : rvs.length ≤ 1 := h (t, lv, rvs) (by simp)
    have hrest := ih (fun e' he' => h e' (by simp [he']))
    cases rvs with
    | nil => simp [pairwiseClassify, hrest, Except.map]
    | cons rv rtl =>
      cases rtl with
      | nil => simp [pairwiseClassify, hrest, Except.map]
      | cons b l => simp at h1

theorem pairwiseClassify_false_first_empty : ∀ (d : Dict τ α) (t : τ) (lv : α)
    (rvs : List α), (∀ e ∈ d, e.2.2.length ≤ 1) →
    d.find? (fun e => e.2.2.isEmpty) = some (t, lv, rvs) →
    pairwiseClassify false d = .error (.noRightValue t lv) := by
  intro d
  induction d with
  | nil => intro t lv rvs _ hf; simp at hf
  | cons e rest ih =>
    intro t lv rvs h hf
    obtain ⟨t0, lv0, rvs0⟩ := e
    cases rvs0 with
    | nil =>
      rw [List.find?_cons_of_pos _ (by simp)] at hf
      obtain ⟨rfl, rfl, rfl⟩ : t0 = t ∧ lv0 = lv ∧ [] = rvs := by
        simpa using hf
      simp [pairwiseClassify]
    | cons rv rtl =>
      have h1 : (rv :: rtl).length ≤ 1 := h (t0, lv0, rv :: rtl) (by simp)
      have hrtl : rtl = [] := by
        cases rtl with
        | nil => rfl
        | cons b l => simp at h1
      subst hrtl
      rw [List.find?_cons_of_neg _ (by simp)] at hf
      have := ih t lv rvs (fun e' he' => h e' (by simp [he'])) hf
      simp [pairwiseClassify, this, Except.map]

theorem pairwiseClassify_first_multi (allow : Bool) : ∀ (d : Dict τ α) (t : τ)
    (lv : α) (rvs : List α),
    d.find? (fun e => decide (2 ≤ e.2.2.length)) = some (t, lv, rvs) →
    (allow = true ∨ ∀ e ∈ d, 1 ≤ e.2.2.length) →
    pairwiseClassify allow d = .error (.multipleRightValue t lv rvs) := by
  intro d
  induction d with
  | nil => intro t lv rvs hf _; simp at hf
  | cons e rest ih =>
    intro t lv rvs hf hside
    obtain ⟨t0, lv0, rvs0⟩ := e
    by_cases h2 : 2 ≤ rvs0.length
    · rw [List.find?_cons_of_pos _ (by simpa using h2)] at hf
      obtain ⟨rfl, rfl, rfl⟩ : t0 = t ∧ lv0 = lv ∧ rvs0 = rvs := by
        simpa using hf
      have hgt : rvs0.length > 1 := by omega
      simp [pairwiseClassify, hgt]
    · rw [List.find?_cons_of_neg _ (by simpa using h2)] at hf
      have hside' : allow = true ∨ ∀ e ∈ rest, 1 ≤ e.2.2.length := by
        cases hside with
        | inl h => exact Or.inl h
        | inr h => exact Or.inr (fun e' he' => h e' (by simp [he']))
      have hrest := ih t lv rvs hf hside'
      have hlen : ¬ rvs0.length > 1 := h2
      cases rvs0 with
      | nil =>
        cases hside with
        | inl h =>
          subst h
          simp [pairwiseClassify, hrest, Except.map]
        | inr h =>
          have := h (t0, lv0, []) (by simp)
          simp at this
      | cons rv rtl =>
        have hrtl : rtl = [] := by
          cases rtl with
          | nil => rfl
          | cons b l => simp at h2
        subst hrtl
        simp [pairwiseClassify, hrest, Except.map]

theorem pairwiseClassify_multi_not_ok (allow : Bool) : ∀ d : Dict τ α,
    (∃ e ∈ d, 2 ≤ e.2.2.length) → ∀ ps, pairwiseClassify allow d ≠ .ok ps := by
  intro d
  induction d with
  | nil => intro h; simp at h
  | cons e rest ih =>
    intro h ps hc
    obtain ⟨t0, lv0, rvs0⟩ := e
    by_cases h2 : rvs0.length > 1
    · simp [pairwiseClassify, h2] at hc
    · obtain ⟨e', he', hlen'⟩ := h
      have hmem : e' ∈ rest := by
        rcases List.mem_cons.mp he' with h' | h'
        · subst h'
          have h3 : 2 ≤ rvs0.length := hlen'
          exact absurd (by omega : rvs0.length > 1) h2
        · exact h'
      cases rvs0 with
      | nil =>
        cases allow with
        | false => simp [pairwiseClassify] at hc
        | true =>
          simp only [pairwiseClassify, if_neg h2] at hc
          cases hr : pairwiseClassify true rest with
          | error e2 => rw [hr] at hc; simp [Except.map] at hc
          | ok ps2 => exact ih ⟨e', hmem, hlen'⟩ ps2 hr
      | cons rv rtl =>
        simp only [pairwiseClassify, if_neg h2] at hc
        cases hr : pairwiseClassify allow rest with
        | error e2 => rw [hr] at hc; simp [Except.map] at hc
        | ok ps2 => exact ih ⟨e', hmem, hlen'⟩ ps2 hr

theorem buildLeftTable_error_shape : ∀ (left : List (τ × α)) (d : Dict τ α)
    (err : VError τ α), buildLeftTable left d = .error err →
    ∃ t vs, err = .duplicateTag t vs := by
  intro left
  induction left with
  | nil => intro d err h; simp [buildLeftTable] at h
  | cons a rest ih =>
    intro d err h
    obtain ⟨t, v⟩ := a
    cases hlk : lookupTag d t with
    | some p =>
      obtain ⟨lv0, rvs0⟩ := p
      simp [buildLeftTable, hlk] at h
      exact ⟨t, [lv0, v], h.symm⟩
    | none =>
      simp only [buildLeftTable, hlk] at h
      exact ih _ err h

theorem fillRights_error_shape : ∀ (right : List (τ × α)) (d : Dict τ α)
    (err : VError τ α), fillRights d right = .error err →
    ∃ t rv, err = .noLeftValue t rv := by
  intro right
  induction right with
  | nil => intro d err h; simp [fillRights] at h
  | cons q rest ih =>
    intro d err h
    obtain ⟨t, rv⟩ := q
    cases ha : appendRight d t rv with
    | none =>
      simp [fillRights, ha] at h
      exact ⟨t, rv, h.symm⟩
    | some d2 =>
      simp only [fillRights, ha] at h
      exact ih d2 err h

theorem pairwiseClassify_true_error_shape : ∀ (d : Dict τ α) (err : VError τ α),
    pairwiseClassify true d = .error err →
    ∃ t lv rvs, err = .multipleRightValue t lv rvs := by
  intro d
  induction d with
  | nil => intro err h; simp [pairwiseClassify] at h
  | cons e rest ih =>
    intro err h
    obtain ⟨t, lv, rvs⟩ := e
    by_cases h2 : rvs.length > 1
    · simp [pairwiseClassify, h2] at h
      exact ⟨t, lv, rvs, h.symm⟩
    · cases rvs with
      | nil =>
        simp only [pairwiseClassify, if_neg h2] at h
        cases hr : pairwiseClassify true rest with
        | error e2 =>
          rw [hr] at h
          simp [Except.map] at h
          exact h ▸ ih e2 hr
        | ok ps2 => rw [hr] at h; simp [Except.map] at h
      | cons rv rtl =>
        simp only [pairwiseClassify, if_neg h2] at h
        cases hr : pairwiseClassify true rest with
        | error e2 =>
          rw [hr] at h
          simp [Except.map] at h
          exact h ▸ ih e2 hr
        | ok ps2 => rw [hr] at h; simp [Except.map] at h

theorem buildLeftTable_dup (left : List (τ × α)) : ∀ d : Dict τ α,
    (d.map (fun e => e.1)).Nodup →
    ¬ ((d.map (fun e => e.1) ++ left.map Prod.fst).Nodup) →
    ∃ t v0 v1, buildLeftTable left d = .error (.duplicateTag t [v0, v1]) ∧
      ((t, v0) ∈ d.map (fun e => (e.1, e.2.1)) ∨ (t, v0) ∈ left) ∧
      (t, v1) ∈ left := by
  induction left with
  | nil =>
    intro d hd hc
    exact absurd (by simpa using hd) hc
  | cons a rest ih =>
    intro d hd hc
    obtain ⟨t, v⟩ := a
    by_cases hm : t ∈ d.map (fun e => e.1)
    · obtain ⟨e, he, het⟩ := List.mem_map.mp hm
      have hs : (d.find? (fun e' => decide (e'.1 = t))).isSome := by
        rw [List.find?_isSome]
        exact ⟨e, he, by simp [het]⟩
      obtain ⟨e0, hfe⟩ := Option.isSome_iff_exists.mp hs
      have he0t : e0.1 = t := by simpa using List.find?_some hfe
      have he0d : e0 ∈ d := List.mem_of_find?_eq_some hfe
      obtain ⟨t0, lv0, rvs0⟩ := e0
      have hlk : lookupTag d t = some (lv0, rvs0) := by
        simp [lookupTag, hfe]
      refine ⟨t, lv0, v, ?_, Or.inl ?_, by simp⟩
      · simp [buildLeftTable, hlk]
      · refine List.mem_map.mpr ⟨(t0, lv0, rvs0), he0d, ?_⟩
        simp only at he0t
        simp [he0t]
    · have hlk : lookupTag d t = none := lookupTag_eq_none hm
      have hd2 : ((d ++ [(t, v, ([] : List α))]).map (fun e => e.1)).Nodup := by
        rw [List.map_append, List.nodup_append]
        refine ⟨hd, by simp, ?_⟩
        intro x hx hx2
        simp at hx2
        subst hx2
        exact hm hx
      have hc2 : ¬ (((d ++ [(t, v, ([] : List α))]).map (fun e => e.1))
          ++ rest.map Prod.fst).Nodup := by
        intro h2
        apply hc
        have : ((d ++ [(t, v, ([] : List α))]).map (fun e => e.1))
            ++ rest.map Prod.fst
            = (d.map (fun e => e.1)) ++ ((t, v) :: rest).map Prod.fst := by
          simp [List.append_assoc]
        rw [this] at h2
        exact h2
      obtain ⟨t', v0, v1, heq, hmem0, hmem1⟩ := ih (d ++ [(t, v, [])]) hd2 hc2
      refine ⟨t', v0, v1, ?_, ?_, by simp [hmem1]⟩
      · simp only [buildLeftTable, hlk]
        exact heq
      · rcases hmem0 with h0 | h0
        · rw [List.map_append] at h0
          rcases List.mem_append.mp h0 with h1 | h1
          · exact Or.inl h1
          · simp at h1
            obtain ⟨ht', hv0⟩ := h1
            exact Or.inr (by simp [ht', hv0])
        · exact Or.inr (by simp [h0])

theorem fillRights_first_orphan : ∀ (right : List (τ × α)) (d : Dict τ α)
    (t : τ) (rv : α),
    right.find? (fun q => decide (q.1 ∉ d.map (fun e => e.1))) = some (t, rv) →
    fillRights d right = .error (.noLeftValue t rv) := by
  intro right
  induction right with
  | nil => intro d t rv h; simp at h
  | cons q rest ih =>
    intro d t rv h
    obtain ⟨t0, rv0⟩ := q
    by_cases hm : t0 ∈ d.map (fun e => e.1)
    · rw [List.find?_cons_of_neg _ (by simpa using hm)] at h
      have happ := @appendRight_of_mem _ _ _ d t0 rv0 hm
      have hrest := ih
        (d.map (fun e => if e.1 = t0 then (e.1, e.2.1, e.2.2 ++ [rv0]) else e))
        t rv (by rw [map_fst_update]; exact h)
      simp [fillRights, happ, hrest]
    · rw [List.find?_cons_of_pos _ (by simpa using hm)] at h
      obtain ⟨rfl, rfl⟩ : t0 = t ∧ rv0 = rv := by simpa using h
      simp [fillRights, appendRight_of_not_mem rv0 hm]

/-- Shared helper: with pairwise-distinct left tags, the first right entry
whose tag is absent from the left table makes both reconciliation entry
points raise `NoLeftValueError` with that tag and right value. -/
theorem reconcile_orphan_error {left right : List (τ × α)} {t : τ} {rv : α}
    (hL : (left.map Prod.fst).Nodup)
    (hfind : right.find? (fun q => decide (q.1 ∉ left.map Prod.fst)) = some (t, rv)) :
    confront_two_tables left right = .error (.noLeftValue t rv) ∧
    ∀ allow : Bool,
      pairwise_two_tables left right allow = .error (.noLeftValue t rv) := by
  have hb := buildLeftTable_ok left [] (by simpa using hL)
  have htags : (left.map (fun e => (e.1, e.2, ([] : List α)))).map (fun e => e.1)
      = left.map Prod.fst := by
    rw [List.map_map]; rfl
  have hfill := fillRights_first_orphan right
    (left.map (fun e => (e.1, e.2, ([] : List α)))) t rv
    (by rw [htags]; exact hfind)
  refine ⟨?_, fun allow => ?_⟩
  · simp [confront_two_tables, confrontTwoTablesImpl, hb, hfill]
  · simp [pairwise_two_tables, confrontTwoTablesImpl, hb, hfill]

/-! ### The claims -/

/-- C1: for every left table with pairwise-distinct tags and every right
table whose tags all occur in the left table, `confront_two_tables` returns
exactly one entry per left entry, in left-table insertion order, each entry
being `(left_value, right_values)` with the right values in right-table
order; a left tag matched by no right entry yields an explicit
`(left_value, [])` entry. -/
theorem confront_two_tables_complete {left right : List (τ × α)}
    (hL : (left.map Prod.fst).Nodup)
    (hR : ∀ q ∈ right, q.1 ∈ left.map Prod.fst) :
    confront_two_tables left right =
      .ok (left.map (fun e => (e.2, rightValues right e.1))) := by
  simp only [confront_two_tables, confrontTwoTablesImpl_ok hL hR]
  rw [List.map_map]
  rfl

theorem confront_two_tables_complete_witness :
    confront_two_tables [("t1", "L1"), ("t2", "L2"), ("t3", "L3")]
      [("t3", "R3a"), ("t1", "R1"), ("t3", "R3b")] =
      .ok ([("t1", "L1"), ("t2", "L2"), ("t3", "L3")].map
        (fun e => (e.2,
          rightValues [("t3", "R3a"), ("t1", "R1"), ("t3", "R3b")] e.1))) :=
  confront_two_tables_complete (by decide) (by decide)

/-- C2: with pairwise-distinct left tags and a right table in which each
left tag occurs exactly once and no other tag occurs,
`pairwise_two_tables` returns, for either value of `allow_no_right`, the
pairs `(left_value, matching right value)` in left-table insertion order,
with no absent markers and no error. -/
theorem pairwise_unique_match {left right : List (τ × α)}
    (hL : (left.map Prod.fst).Nodup)
    (hR : ∀ q ∈ right, q.1 ∈ left.map Prod.fst)
    (hone : ∀ e ∈ left, (rightValues right e.1).length = 1) :
    ∀ allow : Bool,
      pairwise_two_tables left right allow =
        .ok (left.map (fun e => (e.2, (rightValues right e.1).head?))) ∧
      ∀ e ∈ left, ((rightValues right e.1).head?).isSome = true := by
  intro allow
  refine ⟨?_, ?_⟩
  · simp only [pairwise_two_tables, confrontTwoTablesImpl_ok hL hR]
    rw [pairwiseClassify_all_single
      (left.map (fun e => (e.1, e.2, rightValues right e.1)))
      (by
        intro e' he'
        obtain ⟨e, he, rfl⟩ := List.mem_map.mp he'
        exact hone e he)]
    rw [List.map_map]
    rfl
  · intro e he
    have h1 := hone e he
    cases hv : rightValues right e.1 with
    | nil => rw [hv] at h1; simp at h1
    | cons a l => simp [hv]

theorem pairwise_unique_match_witness :
    pairwise_two_tables [("t1", "L1"), ("t2", "L2"), ("t3", "L3")]
      [("t1", "R1"), ("t3", "R3"), ("t2", "R2")] true =
      .ok ([("t1", "L1"), ("t2", "L2"), ("t3", "L3")].map
        (fun e => (e.2,
          (rightValues [("t1", "R1"), ("t3", "R3"), ("t2", "R2")] e.1).head?))) :=
  (pairwise_unique_match (by decide) (by decide) (by decide) true).1

/-- C3: with pairwise-distinct left tags, right tags drawn from the left
tags, no left tag matched more than once, and some left tag matched by no
right entry, `pairwise_two_tables` pairs each unmatched left value with the
absent marker (`none`) when `allow_no_right` is true, and raises
`NoRightValueError` with the first unmatched tag (in left order) and its
left value when `allow_no_right` is false. -/
theorem pairwise_missing_right {left right : List (τ × α)} {t : τ} {lv : α}
    (hL : (left.map Prod.fst).Nodup)
    (hR : ∀ q ∈ right, q.1 ∈ left.map Prod.fst)
    (hle : ∀ e ∈ left, (rightValues right e.1).length ≤ 1)
    (hfind : left.find? (fun e => (rightValues right e.1).isEmpty) = some (t, lv)) :
    pairwise_two_tables left right true =
      .ok (left.map (fun e => (e.2, (rightValues right e.1).head?))) ∧
    pairwise_two_tables left right false = .error (.noRightValue t lv) := by
  have hlenD : ∀ e' ∈ left.map (fun e => (e.1, e.2, rightValues right e.1)),
      e'.2.2.length ≤ 1 := by
    intro e' he'
    obtain ⟨e, he, rfl⟩ := List.mem_map.mp he'
    exact hle e he
  constructor
  · simp only [pairwise_two_tables, confrontTwoTablesImpl_ok hL hR]
    rw [pairwiseClassify_true_le_one _ hlenD, List.map_map]
    rfl
  · simp only [pairwise_two_tables, confrontTwoTablesImpl_ok hL hR]
    apply pairwiseClassify_false_first_empty _ t lv (rightValues right t) hlenD
    rw [List.find?_map]
    have hcomp : ((fun e' : τ × α × List α => e'.2.2.isEmpty) ∘
        (fun e : τ × α => (e.1, e.2, rightValues right e.1))) =
        (fun e : τ × α => (rightValues right e.1).isEmpty) := rfl
    rw [hcomp, hfind]
    simp

theorem pairwise_missing_right_witness :
    pairwise_two_tables [("t1", "L1"), ("t2", "L2"), ("t3", "L3")]
      [("t1", "R1"), ("t3", "R3")] false =
      .error (.noRightValue "t2" "L2") :=
  (pairwise_missing_right (by decide) (by decide) (by decide) (by decide)).2

/-- C4 counterexample: with `allow_no_right = false`, an unmatched left tag
that precedes the duplicated tag in left order is reported first, as
`NoRightValueError`, not `MultipleRightValueError` — refuting the claim
that a multiply-matched tag raises Multiple-Right for both flag values. -/
theorem pairwise_multiple_right_cex :
    pairwise_two_tables [("t1", "L1"), ("t2", "L2")]
      [("t2", "R2a"), ("t2", "R2b")] false =
      .error (.noRightValue "t1" "L1") ∧
    pairwise_two_tables [("t1", "L1"), ("t2", "L2")]
      [("t2", "R2a"), ("t2", "R2b")] false ≠
      .error (.multipleRightValue "t2" "L2" ["R2a", "R2b"]) := by
  refine ⟨rfl, ?_⟩
  intro h
  rw [show pairwise_two_tables [("t1", "L1"), ("t2", "L2")]
      [("t2", "R2a"), ("t2", "R2b")] false =
      .error (.noRightValue "t1" "L1") from rfl] at h
  injection h with h2
  exact VError.noConfusion h2

theorem pairwiseClassify_false_multi_of_prefix : ∀ (d : Dict τ α) (t : τ)
    (lv : α) (rvs : List α),
    d.find? (fun e => decide (2 ≤ e.2.2.length)) = some (t, lv, rvs) →
    (∀ e ∈ d.takeWhile (fun e => decide (e.2.2.length ≤ 1)),
      1 ≤ e.2.2.length) →
    pairwiseClassify false d = .error (.multipleRightValue t lv rvs) := by
  intro d
  induction d with
  | nil => intro t lv rvs hf _; simp at hf
  | cons e rest ih =>
    intro t lv rvs hf hpre
    obtain ⟨t0, lv0, rvs0⟩ := e
    by_cases h2 : 2 ≤ rvs0.length
    · rw [List.find?_cons_of_pos _ (by simpa using h2)] at hf
      obtain ⟨rfl, rfl, rfl⟩ : t0 = t ∧ lv0 = lv ∧ rvs0 = rvs := by
        simpa using hf
      have hgt : rvs0.length > 1 := by omega
      simp [pairwiseClassify, hgt]
    · rw [List.find?_cons_of_neg _ (by simpa using h2)] at hf
      have htw : ((t0, lv0, rvs0) :: rest).takeWhile
          (fun e => decide (e.2.2.length ≤ 1)) =
          (t0, lv0, rvs0) ::
            rest.takeWhile (fun e => decide (e.2.2.length ≤ 1)) := by
        simp [List.takeWhile_cons]
        omega
      rw [htw] at hpre
      have h1 : 1 ≤ rvs0.length := by
        simpa using hpre (t0, lv0, rvs0) (by simp)
      have hrest := ih t lv rvs hf (fun e' he' => hpre e' (by simp [he']))
      obtain ⟨rv, rfl⟩ : ∃ rv, rvs0 = [rv] := by
        cases rvs0 with
        | nil => simp at h1
        | cons a l =>
          cases l with
          | nil => exact ⟨a, rfl⟩
          | cons b l2 => simp at h2
      simp [pairwiseClassify, hrest, Except.map]

theorem pairwiseClassify_false_first_prefix_empty : ∀ (d : Dict τ α) (t : τ)
    (lv : α) (rvs : List α),
    (d.takeWhile (fun e => decide (e.2.2.length ≤ 1))).find?
      (fun e => e.2.2.isEmpty) = some (t, lv, rvs) →
    pairwiseClassify false d = .error (.noRightValue t lv) := by
  intro d
  induction d with
  | nil => intro t lv rvs hf; simp at hf
  | cons e rest ih =>
    intro t lv rvs hf
    obtain ⟨t0, lv0, rvs0⟩ := e
    by_cases h1 : rvs0.length ≤ 1
    · have htw : ((t0, lv0, rvs0) :: rest).takeWhile
          (fun e => decide (e.2.2.length ≤ 1)) =
          (t0, lv0, rvs0) ::
            rest.takeWhile (fun e => decide (e.2.2.length ≤ 1)) := by
        simp [List.takeWhile_cons, h1]
      rw [htw] at hf
      cases rvs0 with
      | nil =>
        rw [List.find?_cons_of_pos _ (by simp)] at hf
        obtain ⟨rfl, rfl, rfl⟩ : t0 = t ∧ lv0 = lv ∧ [] = rvs := by
          simpa using hf
        simp [pairwiseClassify]
      | cons rv rtl =>
        have hrtl : rtl = [] := by
          cases rtl with
          | nil => rfl
          | cons b l => simp at h1
        subst hrtl
        rw [List.find?_cons_of_neg _ (by simp)] at hf
        have := ih t lv rvs hf
        simp [pairwiseClassify, this, Except.map]
    · have htw : ((t0, lv0, rvs0) :: rest).takeWhile
          (fun e => decide (e.2.2.length ≤ 1)) = [] := by
        simp [List.takeWhile_cons, h1]
      rw [htw] at hf
      simp at hf

/-- C4 (amended): with pairwise-distinct left tags and right tags drawn
from the left tags, let the first left tag (in left order) matched by two
or more right entries be `t` with left value `lv`.  Then: with
`allow_no_right = true` the call raises `MultipleRightValueError` carrying
`t`, `lv` and all of `t`'s right values in right-table order; with
`allow_no_right = false` it never returns successfully, it raises that same
`MultipleRightValueError` provided every left tag preceding `t` has at
least one right match, and otherwise the first unmatched left tag
preceding `t` raises `NoRightValueError` first. -/
theorem pairwise_multiple_right_amended {left right : List (τ × α)}
    {t : τ} {lv : α}
    (hL : (left.map Prod.fst).Nodup)
    (hR : ∀ q ∈ right, q.1 ∈ left.map Prod.fst)
    (hfind : left.find?
      (fun e => decide (2 ≤ (rightValues right e.1).length)) = some (t, lv)) :
    pairwise_two_tables left right true =
      .error (.multipleRightValue t lv (rightValues right t)) ∧
    (∀ ps, pairwise_two_tables left right false ≠ .ok ps) ∧
    ((∀ e ∈ left.takeWhile
        (fun e => decide ((rightValues right e.1).length ≤ 1)),
        1 ≤ (rightValues right e.1).length) →
      pairwise_two_tables left right false =
        .error (.multipleRightValue t lv (rightValues right t))) ∧
    (∀ (t2 : τ) (lv2 : α),
      (left.takeWhile
        (fun e => decide ((rightValues right e.1).length ≤ 1))).find?
        (fun e => (rightValues right e.1).isEmpty) = some (t2, lv2) →
      pairwise_two_tables left right false =
        .error (.noRightValue t2 lv2)) := by
  have hDfind : (left.map (fun e => (e.1, e.2, rightValues right e.1))).find?
      (fun e' => decide (2 ≤ e'.2.2.length)) =
      some (t, lv, rightValues right t) := by
    rw [List.find?_map]
    have hcomp : ((fun e' : τ × α × List α => decide (2 ≤ e'.2.2.length)) ∘
        (fun e : τ × α => (e.1, e.2, rightValues right e.1))) =
        (fun e : τ × α => decide (2 ≤ (rightValues right e.1).length)) := rfl
    rw [hcomp, hfind]
    simp
  have htwD : (left.map (fun e => (e.1, e.2, rightValues right e.1))).takeWhile
      (fun e' => decide (e'.2.2.length ≤ 1)) =
      (left.takeWhile
        (fun e => decide ((rightValues right e.1).length ≤ 1))).map
        (fun e => (e.1, e.2, rightValues right e.1)) := by
    rw [List.takeWhile_map]
    have hcomp2 : ((fun e' : τ × α × List α => decide (e'.2.2.length ≤ 1)) ∘
        (fun e : τ × α => (e.1, e.2, rightValues right e.1))) =
        (fun e : τ × α => decide ((rightValues right e.1).length ≤ 1)) := rfl
    rw [hcomp2]
  refine ⟨?_, ?_, ?_, ?_⟩
  · simp only [pairwise_two_tables, confrontTwoTablesImpl_ok hL hR]
    exact pairwiseClassify_first_multi true _ t lv _ hDfind (Or.inl rfl)
  · intro ps
    simp only [pairwise_two_tables, confrontTwoTablesImpl_ok hL hR]
    exact pairwiseClassify_multi_not_ok false _
      ⟨(t, lv, rightValues right t), List.mem_of_find?_eq_some hDfind,
        by simpa using List.find?_some hDfind⟩ ps
  · intro hpre
    simp only [pairwise_two_tables, confrontTwoTablesImpl_ok hL hR]
    apply pairwiseClassify_false_multi_of_prefix _ t lv _ hDfind
    intro e' he'
    rw [htwD] at he'
    obtain ⟨e, he, rfl⟩ := List.mem_map.mp he'
    exact hpre e he
  · intro t2 lv2 hf2
    simp only [pairwise_two_tables, confrontTwoTablesImpl_ok hL hR]
    apply pairwiseClassify_false_first_prefix_empty _ t2 lv2
      (rightValues right t2)
    rw [htwD, List.find?_map]
    have hcomp3 : ((fun e' : τ × α × List α => e'.2.2.isEmpty) ∘
        (fun e : τ × α => (e.1, e.2, rightValues right e.1))) =
        (fun e : τ × α => (rightValues right e.1).isEmpty) := rfl
    rw [hcomp3, hf2]
    simp

theorem pairwise_multiple_right_amended_witness :
    pairwise_two_tables [("t1", "L1"), ("t2", "L2")]
      [("t1", "R1a"), ("t1", "R1b")] true =
      .error (.multipleRightValue "t1" "L1"
        (rightValues [("t1", "R1a"), ("t1", "R1b")] "t1")) ∧
    pairwise_two_tables [("t1", "L1"), ("t2", "L2")]
      [("t1", "R1a"), ("t1", "R1b")] false =
      .error (.multipleRightValue "t1" "L1"
        (rightValues [("t1", "R1a"), ("t1", "R1b")] "t1")) :=
  ⟨(pairwise_multiple_right_amended (by decide) (by decide) (by decide)).1,
    (pairwise_multiple_right_amended (by decide) (by decide)
      (by decide)).2.2.1 (by decide)⟩

/-- C5 counterexample: when a tag occurs three times in the left table,
`DuplicateTagError` carries only the first two conflicting left values
(`["a", "b"]`), not all three — `"c"` is missing — refuting "reports the
tag and all conflicting left values". -/
theorem duplicate_tag_cex :
    confront_two_tables [("t", "a"), ("t", "b"), ("t", "c")]
      ([] : List (String × String)) =
      .error (.duplicateTag "t" ["a", "b"]) ∧
    "c" ∉ (["a", "b"] : List String) :=
  ⟨rfl, by decide⟩

/-- C5 (amended): for every left table in which some tag occurs more than
once, both entry points raise `DuplicateTagError` regardless of the right
table (the duplicate is detected before any right-table processing), and
the error carries the tag together with two of its conflicting left values
(the first-stored value and the value at which the duplicate was
detected) — not necessarily all of them. -/
theorem duplicate_tag_amended {left : List (τ × α)}
    (h : ¬ (left.map Prod.fst).Nodup) :
    ∃ t v0 v1, (t, v0) ∈ left ∧ (t, v1) ∈ left ∧
      ∀ (right : List (τ × α)) (allow : Bool),
        confront_two_tables left right = .error (.duplicateTag t [v0, v1]) ∧
        pairwise_two_tables left right allow =
          .error (.duplicateTag t [v0, v1]) := by
  obtain ⟨t, v0, v1, heq, hm0, hm1⟩ :=
    buildLeftTable_dup left [] (by simp) (by simpa using h)
  have hm0' : (t, v0) ∈ left := by
    rcases hm0 with h0 | h0
    · simp at h0
    · exact h0
  refine ⟨t, v0, v1, hm0', hm1, ?_⟩
  intro right allow
  constructor
  · simp [confront_two_tables, confrontTwoTablesImpl, heq]
  · simp [pairwise_two_tables, confrontTwoTablesImpl, heq]

theorem duplicate_tag_amended_witness :
    ∃ t v0 v1, (t, v0) ∈ [("t", "a"), ("t", "b")] ∧
      (t, v1) ∈ [("t", "a"), ("t", "b")] ∧
      ∀ (right : List (String × String)) (allow : Bool),
        confront_two_tables [("t", "a"), ("t", "b")] right =
          .error (.duplicateTag t [v0, v1]) ∧
        pairwise_two_tables [("t", "a"), ("t", "b")] right allow =
          .error (.duplicateTag t [v0, v1]) :=
  duplicate_tag_amended (by decide)

/-- C6: with pairwise-distinct left tags, if the right table contains an
entry whose tag does not occur in the left table, both entry points raise
`NoLeftValueError` carrying the first such orphan tag and its right value,
independent of how many times that tag recurs in the right table. -/
theorem missing_left_raises {left right : List (τ × α)} {t : τ} {rv : α}
    (hL : (left.map Prod.fst).Nodup)
    (hfind : right.find?
      (fun q => decide (q.1 ∉ left.map Prod.fst)) = some (t, rv)) :
    confront_two_tables left right = .error (.noLeftValue t rv) ∧
    ∀ allow : Bool,
      pairwise_two_tables left right allow = .error (.noLeftValue t rv) :=
  reconcile_orphan_error hL hfind

theorem missing_left_raises_witness :
    confront_two_tables [("t1", "L1")] [("tX", "RX"), ("tX", "RX2")] =
      .error (.noLeftValue "tX" "RX") :=
  (missing_left_raises (by decide) (by decide)).1

/-- C9 (implicit): Missing-Left takes precedence over Multiple-Right in
`pairwise_two_tables` — with distinct left tags, a right table containing
both an orphan tag and a left tag matched at least twice raises
`NoLeftValueError`, never `MultipleRightValueError`, for either value of
`allow_no_right`, because the grouping scan over the right table runs
before any fan-out check. -/
theorem missing_left_precedence {left right : List (τ × α)}
    (hL : (left.map Prod.fst).Nodup)
    (horphan : ∃ q ∈ right, q.1 ∉ left.map Prod.fst)
    (_hmulti : ∃ e ∈ left, 2 ≤ (rightValues right e.1).length) :
    ∀ allow : Bool,
      (∃ t rv, pairwise_two_tables left right allow =
        .error (.noLeftValue t rv)) ∧
      ∀ (t : τ) (lv : α) (rvs : List α),
        pairwise_two_tables left right allow ≠
          .error (.multipleRightValue t lv rvs) := by
  have hs : (right.find? (fun q => decide (q.1 ∉ left.map Prod.fst))).isSome := by
    rw [List.find?_isSome]
    obtain ⟨q, hq, hq2⟩ := horphan
    exact ⟨q, hq, by simpa using hq2⟩
  obtain ⟨q0, hf⟩ := Option.isSome_iff_exists.mp hs
  obtain ⟨t0, rv0⟩ := q0
  have herr := (reconcile_orphan_error hL hf).2
  intro allow
  refine ⟨⟨t0, rv0, herr allow⟩, ?_⟩
  intro t lv rvs hc
  rw [herr allow] at hc
  injection hc with h2
  exact VError.noConfusion h2

theorem missing_left_precedence_witness :
    ∃ t rv, pairwise_two_tables [("t1", "L1")]
      [("t1", "R1"), ("t1", "R2"), ("tX", "RX")] true =
      .error (.noLeftValue t rv) :=
  (missing_left_precedence (by decide) (by decide) (by decide) true).1

/-- C10 (implicit): with `allow_no_right = true` (the Python default, used
by the move workflow), `pairwise_two_tables` never raises
`NoRightValueError` — every error it can produce is a Duplicate-Tag,
Missing-Left or Multiple-Right error. -/
theorem pairwise_allow_error_taxonomy {left right : List (τ × α)}
    {e : VError τ α}
    (h : pairwise_two_tables left right true = .error e) :
    (∃ t vs, e = .duplicateTag t vs) ∨
    (∃ t rv, e = .noLeftValue t rv) ∨
    (∃ t lv rvs, e = .multipleRightValue t lv rvs) := by
  cases hci : confrontTwoTablesImpl left right with
  | error e2 =>
    simp only [pairwise_two_tables, hci] at h
    obtain rfl : e2 = e := by simpa using h
    unfold confrontTwoTablesImpl at hci
    cases hb : buildLeftTable left ([] : Dict τ α) with
    | error eb =>
      rw [hb] at hci
      simp at hci
      subst hci
      exact Or.inl (buildLeftTable_error_shape left [] eb hb)
    | ok d =>
      rw [hb] at hci
      simp at hci
      exact Or.inr (Or.inl (fillRights_error_shape right d e2 hci))
  | ok d2 =>
    simp only [pairwise_two_tables, hci] at h
    exact Or.inr (Or.inr (pairwiseClassify_true_error_shape d2 e h))

theorem pairwise_allow_error_taxonomy_witness :
    (∃ t vs, (VError.duplicateTag "t" ["a", "b"] : VError String String) =
      .duplicateTag t vs) ∨
    (∃ t rv, (VError.duplicateTag "t" ["a", "b"] : VError String String) =
      .noLeftValue t rv) ∨
    (∃ t lv rvs, (VError.duplicateTag "t" ["a", "b"] : VError String String) =
      .multipleRightValue t lv rvs) :=
  @pairwise_allow_error_taxonomy _ _ _ [("t", "a"), ("t", "b")] []
    (VError.duplicateTag "t" ["a", "b"]) rfl

/-- C7 (evaluating the code at the failing input): a table file containing
the one-field line `"orphan"` makes parsing fail before any reconciliation
(`parseTable` aborts with the `ValueError`, so no partial result is used),
but the `move` command then exits with `EXIT_UNEXPECTED_FAIL` (2) — the
uncaught-`ValueError` traceback path — not the handled-failure exit code
`EXIT_FAIL` (1) with a file-and-line diagnostic that the claim requires. -/
theorem malformed_line_exit_code :
    parseTable ["orphan".data] = .error "orphan".data ∧
    main_move_exit ["ab12cd /tmp/a.txt".data] ["orphan".data] =
      EXIT_UNEXPECTED_FAIL ∧
    EXIT_UNEXPECTED_FAIL ≠ EXIT_FAIL :=
  ⟨rfl, rfl, by decide⟩

/-! ### Parser lemmas -/

theorem dropWhile_append_of_all {β : Type} (p : β → Bool) (l1 l2 : List β)
    (h : l1.all p = true) : (l1 ++ l2).dropWhile p = l2.dropWhile p := by
  induction l1 with
  | nil => simp
  | cons a l ih =>
    simp only [List.all_cons, Bool.and_eq_true] at h
    simp [List.dropWhile_cons, h.1, ih h.2]

theorem takeWhile_append_of_all {β : Type} (p : β → Bool) (l1 l2 : List β)
    (h : l1.all p = true) : (l1 ++ l2).takeWhile p = l1 ++ l2.takeWhile p := by
  induction l1 with
  | nil => simp
  | cons a l ih =>
    simp only [List.all_cons, Bool.and_eq_true] at h
    simp [List.takeWhile_cons, h.1, ih h.2]

theorem all_reverse_eq {β : Type} (p : β → Bool) (l : List β) :
    l.reverse.all p = l.all p := by
  simp [List.all_eq_true]

/-- Splitting behaviour of `parseLine` on a decomposed well-formed line:
optional leading whitespace, a non-empty whitespace-free tag, a non-empty
whitespace run, a value that starts and ends with non-whitespace (but may
contain internal whitespace), and optional trailing whitespace.  The tag
and the value are recovered; the leading and trailing whitespace — the
latter including any whitespace that ended the value — is stripped. -/
theorem parseLine_split (lead tagc sep val trail : List Char)
    (hlead : lead.all isPySpace = true)
    (htag1 : tagc ≠ [])
    (htag2 : tagc.all (fun c => !isPySpace c) = true)
    (hsep1 : sep ≠ [])
    (hsep2 : sep.all isPySpace = true)
    (hval1 : val ≠ [])
    (hvalh : ∀ c, val.head? = some c → isPySpace c = false)
    (hvall : ∀ c, val.getLast? = some c → isPySpace c = false)
    (htrail : trail.all isPySpace = true) :
    parseLine (lead ++ tagc ++ sep ++ val ++ trail) = .ok (tagc, val) := by
  obtain ⟨c0, ct, rfl⟩ : ∃ c0 ct, tagc = c0 :: ct := by
    cases tagc with
    | nil => exact absurd rfl htag1
    | cons a b => exact ⟨a, b, rfl⟩
  obtain ⟨s0, st, rfl⟩ : ∃ s0 st, sep = s0 :: st := by
    cases sep with
    | nil => exact absurd rfl hsep1
    | cons a b => exact ⟨a, b, rfl⟩
  obtain ⟨v0, vt, rfl⟩ : ∃ v0 vt, val = v0 :: vt := by
    cases val with
    | nil => exact absurd rfl hval1
    | cons a b => exact ⟨a, b, rfl⟩
  have hc0 : isPySpace c0 = false := by
    simp only [List.all_cons, Bool.and_eq_true] at htag2
    simpa using htag2.1
  have hs0 : isPySpace s0 = true := by
    simp only [List.all_cons, Bool.and_eq_true] at hsep2
    exact hsep2.1
  have hv0 : isPySpace v0 = false := hvalh v0 rfl
  obtain ⟨vl, vrt, hrev⟩ : ∃ vl vrt, (v0 :: vt).reverse = vl :: vrt := by
    cases hr : (v0 :: vt).reverse with
    | nil => exact absurd (List.reverse_eq_nil_iff.mp hr) (by simp)
    | cons a b => exact ⟨a, b, rfl⟩
  have hvl : isPySpace vl = false := by
    apply hvall
    rw [← List.head?_reverse, hrev]
    rfl
  have hstrip : stripChars (lead ++ (c0 :: ct) ++ (s0 :: st) ++ (v0 :: vt) ++ trail)
      = (c0 :: ct) ++ (s0 :: st) ++ (v0 :: vt) := by
    unfold stripChars
    have h1 : (lead ++ (c0 :: ct) ++ (s0 :: st) ++ (v0 :: vt) ++ trail).dropWhile
        isPySpace = (c0 :: ct) ++ (s0 :: st) ++ (v0 :: vt) ++ trail := by
      have : lead ++ (c0 :: ct) ++ (s0 :: st) ++ (v0 :: vt) ++ trail
          = lead ++ ((c0 :: ct) ++ (s0 :: st) ++ (v0 :: vt) ++ trail) := by
        simp [List.append_assoc]
      rw [this, dropWhile_append_of_all _ lead _ hlead]
      simp [List.dropWhile_cons, hc0]
    rw [h1]
    have h2 : ((c0 :: ct) ++ (s0 :: st) ++ (v0 :: vt) ++ trail).reverse
        = trail.reverse ++ ((v0 :: vt).reverse
            ++ ((s0 :: st).reverse ++ (c0 :: ct).reverse)) := by
      simp [List.reverse_append, List.append_assoc]
    rw [h2, dropWhile_append_of_all _ trail.reverse _
      (by rw [all_reverse_eq]; exact htrail)]
    rw [hrev]
    simp only [List.cons_append, List.dropWhile_cons, hvl, Bool.false_eq_true,
      if_false]
    rw [← List.cons_append, ← hrev]
    simp [List.reverse_append, List.append_assoc]
  unfold parseLine
  rw [hstrip]
  have hl1 : ((c0 :: ct) ++ (s0 :: st) ++ (v0 :: vt)).dropWhile isPySpace
      = (c0 :: ct) ++ (s0 :: st) ++ (v0 :: vt) := by
    simp [List.dropWhile_cons, hc0]
  have htake : ((c0 :: ct) ++ (s0 :: st) ++ (v0 :: vt)).takeWhile
      (fun c => !isPySpace c) = c0 :: ct := by
    have : (c0 :: ct) ++ (s0 :: st) ++ (v0 :: vt)
        = (c0 :: ct) ++ ((s0 :: st) ++ (v0 :: vt)) := by
      simp [List.append_assoc]
    rw [this, takeWhile_append_of_all _ _ _ htag2]
    simp [List.takeWhile_cons, hs0]
  have hdrop : (((c0 :: ct) ++ (s0 :: st) ++ (v0 :: vt)).dropWhile
      (fun c => !isPySpace c)).dropWhile isPySpace = v0 :: vt := by
    have : (c0 :: ct) ++ (s0 :: st) ++ (v0 :: vt)
        = (c0 :: ct) ++ ((s0 :: st) ++ (v0 :: vt)) := by
      simp [List.append_assoc]
    rw [this, dropWhile_append_of_all _ _ _ htag2]
    have hstay : ((s0 :: st) ++ (v0 :: vt)).dropWhile (fun c => !isPySpace c)
        = (s0 :: st) ++ (v0 :: vt) := by
      simp [List.dropWhile_cons, hs0]
    rw [hstay, dropWhile_append_of_all _ _ _ hsep2]
    simp [List.dropWhile_cons, hv0]
  simp only [splitNone1, hl1, htake, hdrop]
  simp

/-- File-order preservation: when every line parses, `parseTable` returns
exactly the per-line parses, in file order. -/
theorem parseTable_order : ∀ lines : List (List Char),
    (∀ l ∈ lines, (parseLine l).toOption.isSome = true) →
    parseTable lines =
      .ok (lines.map (fun l => (parseLine l).toOption.getD ([], []))) := by
  intro lines
  induction lines with
  | nil => intro _; simp [parseTable]
  | cons l rest ih =>
    intro h
    have hl := h l (by simp)
    cases he : parseLine l with
    | error err => rw [he] at hl; simp [Except.toOption] at hl
    | ok e =>
      have := ih (fun l' hl' => h l' (by simp [hl']))
      simp [parseTable, he, this, Except.toOption]

/-- C8 (amended): each well-formed line — tag, whitespace run, value — is
split at the first whitespace run into `(tag, value)`; internal whitespace
of the value is preserved, but the parser strips leading whitespace of the
line and trailing whitespace of the line (hence of the value), so a value
ending in whitespace is not preserved as written; and a fully well-formed
file parses to its per-line results in file order. -/
theorem parse_split_amended :
    (∀ lead tagc sep val trail : List Char,
      lead.all isPySpace = true →
      tagc ≠ [] → tagc.all (fun c => !isPySpace c) = true →
      sep ≠ [] → sep.all isPySpace = true →
      val ≠ [] →
      (∀ c, val.head? = some c → isPySpace c = false) →
      (∀ c, val.getLast? = some c → isPySpace c = false) →
      trail.all isPySpace = true →
      parseLine (lead ++ tagc ++ sep ++ val ++ trail) = .ok (tagc, val)) ∧
    (∀ lines : List (List Char),
      (∀ l ∈ lines, (parseLine l).toOption.isSome = true) →
      parseTable lines =
        .ok (lines.map (fun l => (parseLine l).toOption.getD ([], [])))) :=
  ⟨parseLine_split, parseTable_order⟩

theorem parse_split_amended_witness :
    parseLine "t1 a b".data = .ok ("t1".data, "a b".data) :=
  parse_split_amended.1 [] "t1".data " ".data "a b".data []
    (by decide) (by decide) (by decide) (by decide) (by decide) (by decide)
    (by decide) (by decide) (by decide)

/-- C8 counterexample: a line whose value ends in a space — tag `"t1"`,
separator `" "`, value `"v "` — parses to the value `"v"`: the trailing
space of the value is stripped (by `line.strip()`), so the value is not
preserved as written. -/
theorem parse_trailing_space_cex :
    parseLine "t1 v ".data = .ok ("t1".data, "v".data) ∧
    parseLine "t1 v ".data ≠ .ok ("t1".data, "v ".data) := by
  refine ⟨rfl, ?_⟩
  intro h
  rw [show parseLine "t1 v ".data = .ok ("t1".data, "v".data) from rfl] at h
  injection h with h2
  have h3 : "v".data = "v ".data := congrArg Prod.snd h2
  simp at h3

end Vrename
